import Mathlib

/-!
Shallow embedding of the `march` Markov-chain crate (`src/lib.rs`).

The crate builds a directed graph (petgraph `Graph<Item<T>, u32>`) whose
nodes are `Item::Start`, `Item::End` and deduplicated `Item::Data(T)`
values, and whose edge weights count observed transitions.  Generation
performs a weighted random walk from the Start node.

Modelling conventions:
* `NodeId` is the node's index in the insertion-ordered node list, exactly
  as petgraph assigns indices to a graph that never removes nodes.
* Edges are kept as an insertion-ordered list of (source, target, weight)
  triples.  petgraph's `update_edge` updates the unique matching edge (the
  graphs built by this crate never contain parallel edges) or appends a
  fresh one, which is what `updateEdgeList` does.
* Edge weights are `u32`; additions on them are taken modulo `2 ^ 32`
  (release-mode Rust wrapping semantics).
* The random number generator is modelled as an oracle `rng : Nat → Nat`
  giving the stream of draws; the walker keeps a draw counter.  The
  `WeightedIndex` total is accumulated in `u32` exactly as rand 0.8 does
  (each addition wraps modulo `2 ^ 32`), so the construction's zero
  check also fires when positive weights wrap to a multiple of `2 ^ 32`.
  A sample over a non-wrapping total consumes one draw `r` and picks the
  unique edge whose cumulative-weight window contains `r % total`, so
  zero-weight edges are never selected and every edge is selected for a
  suitable draw; no claim depends on which edge the code draws when the
  total wraps without reaching zero.
* Rust panics (`expect` on `WeightedIndex::new`, `unreachable!()`, node
  indexing out of bounds) are modelled as `Except.error` values.
* The eager `generate` loop and the lazy `generate_iter` sequence are
  modelled with explicit fuel: `GenOut.done` means the loop/iterator
  finished by itself within the fuel, `GenOut.spent` means the fuel ran
  out first (the fuel is an observation bound, not part of the program).
-/

universe u

/-- Node payload, the `Item<T>` enum of the crate. -/
inductive Item (T : Type u) where
  | Start : Item T
  | End : Item T
  | Data : T → Item T
deriving DecidableEq

/-- One directed edge of the graph: (source, target, weight). -/
abbrev GEdge := Nat × Nat × Nat

/-- The modulus of `u32` arithmetic. -/
def u32Mod : Nat := 2 ^ 32

/-- The petgraph graph `Graph<Item<T>, u32>`: nodes in insertion order
(a node's id is its index) and edges as (source, target, weight) triples
in insertion order. -/
structure ChainGraph (T : Type u) where
  nodes : List (Item T)
  edges : List GEdge
deriving DecidableEq

/-- Weight of the (unique) edge `a → b`, if present: the crate's
`edges_connecting(a, b).next()` restricted to graphs without parallel
edges. -/
def findEdgeWeight : List GEdge → Nat → Nat → Option Nat
  | [], _, _ => none
  | e :: es, a, b => if e.1 = a ∧ e.2.1 = b then some e.2.2 else findEdgeWeight es a b

/-- petgraph `update_edge a b w`: overwrite the weight of the matching
edge, or append a fresh edge `(a, b, w)` when none exists. -/
def updateEdgeList (a b w : Nat) : List GEdge → List GEdge
  | [] => [(a, b, w)]
  | e :: es => if e.1 = a ∧ e.2.1 = b then (a, b, w) :: es else e :: updateEdgeList a b w es

/-- Outgoing edges of node `a`, petgraph's `edges(a)`.  (petgraph iterates
most-recent-first; nothing below depends on the order, so insertion order
is used.) -/
def outgoing {T : Type u} (g : ChainGraph T) (a : Nat) : List GEdge :=
  g.edges.filter (fun e => decide (e.1 = a))

/-- The `Chain<T>` struct: the graph, the ids of the pre-created Start and
End nodes (`start` and `end`; the latter is called `stop` here because
`end` is a Lean keyword), and the `words` dedup map from `Item<T>` to
node id, modelled as an association list with `HashMap` lookup/insert
semantics. -/
structure Chain (T : Type u) where
  graph : ChainGraph T
  start : Nat
  stop : Nat
  words : List (Item T × Nat)

/-- The `HashMap::get` lookup on the dedup map. -/
def wordsGet {T : Type u} [DecidableEq T] : List (Item T × Nat) → Item T → Option Nat
  | [], _ => none
  | p :: ps, k => if p.1 = k then some p.2 else wordsGet ps k

/-- The `HashMap::insert` write on the dedup map: replace the entry of an existing
key, otherwise add one. -/
def wordsInsert {T : Type u} [DecidableEq T] : List (Item T × Nat) → Item T → Nat → List (Item T × Nat)
  | [], k, v => [(k, v)]
  | p :: ps, k, v => if p.1 = k then (k, v) :: ps else p :: wordsInsert ps k v

namespace Chain

variable {T : Type u} [DecidableEq T]

/-- Constructor `Chain::new`: a graph holding exactly the Start node (id 0) and the
End node (id 1), and an empty dedup map. -/
def new (T : Type u) [DecidableEq T] : Chain T :=
  { graph := { nodes := [Item.Start, Item.End], edges := [] }
    start := 0
    stop := 1
    words := [] }

/-- Method `Chain::bump_edge`: weight starts at 1, has the existing `a → b`
weight added to it if such an edge exists (u32 addition), and is written
back with `update_edge`. -/
def bump_edge (c : Chain T) (a b : Nat) : Chain T :=
  let weight : Nat :=
    match findEdgeWeight c.graph.edges a b with
    | some w => (1 + w) % u32Mod
    | none => 1
  { c with graph := { c.graph with edges := updateEdgeList a b weight c.graph.edges } }

/-- Method `Chain::ensure_node`: return the node id recorded in `words`, or add
a fresh `Data` node to the graph, record it, and return it. -/
def ensure_node (c : Chain T) (item : T) : Chain T × Nat :=
  match wordsGet c.words (Item.Data item) with
  | some node => (c, node)
  | none =>
    let node := c.graph.nodes.length
    ({ c with
        graph := { c.graph with nodes := c.graph.nodes ++ [Item.Data item] }
        words := wordsInsert c.words (Item.Data item) node }
     , node)

/-- The loop body of `Chain::feed`: for each item in turn, ensure its
node, bump the edge from the previous node, and advance `prev`.  Returns
the resulting chain and the final value of `prev`. -/
def feedAux (c : Chain T) (prev : Nat) : List T → Chain T × Nat
  | [] => (c, prev)
  | x :: xs =>
    let cn := ensure_node c x
    feedAux (bump_edge cn.1 prev cn.2) cn.2 xs

/-- Method `Chain::feed`: run the loop from the Start node, then, when `prev`
moved off Start, bump the edge from the final node to the End node. -/
def feed (c : Chain T) (items : List T) : Chain T :=
  let r := feedAux c c.start items
  if r.2 ≠ r.1.start then bump_edge r.1 r.2 r.1.stop else r.1

end Chain

/-- The walker state of `RandomWalk<N, R>`: the current node, and the
count of random draws consumed so far (the state of the modelled rng). -/
structure RandomWalk where
  current : Nat
  ctr : Nat
deriving DecidableEq

/-- The modelled Rust panics and iterator aborts during generation. -/
inductive GenError where
  /-- Construction of `WeightedIndex` failed (`expect` in `RandomWalk::next`). -/
  | weightedIndexError : GenError
  /-- The `unreachable!()` arm of `generate_iter` saw the Start node. -/
  | startUnreachable : GenError
  /-- Indexing `graph[idx]` with an id that is not a node. -/
  | invalidNode : GenError
  /-- A sampled index fell outside the edge list (cannot happen). -/
  | sampleError : GenError
deriving DecidableEq

/-- Total weight of an edge list as `WeightedIndex::new` computes it:
rand 0.8 accumulates `total_weight` in the weight type itself — `u32`
here — so every addition wraps modulo `2 ^ 32` (release semantics; a
debug build panics at the same inputs).  A genuinely all-zero list and a
list of positive weights whose running total lands on a multiple of
`2 ^ 32` are therefore indistinguishable to the zero check. -/
def sumWeights (es : List GEdge) : Nat :=
  es.foldl (fun s e => (s + e.2.2) % u32Mod) 0

/-- The same total in unbounded arithmetic, used to state no-wrap
hypotheses. -/
def natSumWeights (es : List GEdge) : Nat := es.foldr (fun e s => e.2.2 + s) 0

/-- Cumulative-weight selection of `WeightedIndex::sample`: pick the edge
whose window of the weight line contains `r`. -/
def pickEdge : List GEdge → Nat → Option GEdge
  | [], _ => none
  | e :: es, r => if r < e.2.2 then some e else pickEdge es (r - e.2.2)

/-- Method `RandomWalk::next`: collect the outgoing edges of the current node;
none means the walk ends; otherwise build the weighted distribution
(failing when the u32-accumulated total weight is zero, as
`WeightedIndex::new` does), draw once, and advance to the sampled edge's
target.  When the total does not wrap, the cumulative-window selection
of `pickEdge` is exactly rand's sampling; no claim below depends on
which edge is drawn in the wrapped-but-nonzero regime. -/
def rwNext {T : Type u} [DecidableEq T] (g : ChainGraph T) (rng : Nat → Nat) (w : RandomWalk) :
    Except GenError (Option (Nat × RandomWalk)) :=
  let es := outgoing g w.current
  if es.length = 0 then .ok none
  else
    let total := sumWeights es
    if total = 0 then .error .weightedIndexError
    else
      match pickEdge es (rng w.ctr % total) with
      | none => .error .sampleError
      | some e => .ok (some (e.2.1, { current := e.2.1, ctr := w.ctr + 1 }))

/-- Outcome of observing an eager loop or a lazy sequence under a fuel
bound: it finished by itself (`done`) or the fuel ran out (`spent`). -/
inductive GenOut (T : Type u) where
  | done : List T → GenOut T
  | spent : List T → GenOut T
deriving DecidableEq

/-- Prepend an emitted item to a generation outcome. -/
def GenOut.cons {T : Type u} (t : T) : GenOut T → GenOut T
  | .done l => .done (t :: l)
  | .spent l => .spent (t :: l)

/-- The loop of `Chain::generate`, with fuel: while the walker advances,
push the payload of a Data node and continue, and break on any other
node (End, or Start, which the loop does not distinguish from End). -/
def generateAux {T : Type u} [DecidableEq T] (c : Chain T) (rng : Nat → Nat) :
    Nat → RandomWalk → Except GenError (GenOut T)
  | 0, _ => .ok (.spent [])
  | fuel + 1, w =>
    match rwNext c.graph rng w with
    | .error e => .error e
    | .ok none => .ok (.done [])
    | .ok (some (idx, w')) =>
      match c.graph.nodes[idx]? with
      | none => .error .invalidNode
      | some (Item.Data t) => (generateAux c rng fuel w').map (GenOut.cons t)
      | some _ => .ok (.done [])

/-- The lazy sequence of `Chain::generate_iter`, with fuel: the walker
iterator filtered through `filter_map`, which yields Data payloads,
skips the End node and keeps pulling, and hits `unreachable!()` on the
Start node. -/
def genIterAux {T : Type u} [DecidableEq T] (c : Chain T) (rng : Nat → Nat) :
    Nat → RandomWalk → Except GenError (GenOut T)
  | 0, _ => .ok (.spent [])
  | fuel + 1, w =>
    match rwNext c.graph rng w with
    | .error e => .error e
    | .ok none => .ok (.done [])
    | .ok (some (idx, w')) =>
      match c.graph.nodes[idx]? with
      | none => .error .invalidNode
      | some (Item.Data t) => (genIterAux c rng fuel w').map (GenOut.cons t)
      | some Item.End => genIterAux c rng fuel w'
      | some Item.Start => .error .startUnreachable

/-- The loop of `Chain::generate` observed for `fuel` walk advances, from
the initial walker.  Argument `rng` models
the draw stream of the thread-local generator the call obtains. -/
def generateFn {T : Type u} [DecidableEq T] (c : Chain T) (rng : Nat → Nat) (fuel : Nat) :
    Except GenError (GenOut T) :=
  generateAux c rng fuel { current := c.start, ctr := 0 }

/-- The sequence of `Chain::generate_iter` observed for `fuel` walk advances. -/
def genIterFn {T : Type u} [DecidableEq T] (c : Chain T) (rng : Nat → Nat) (fuel : Nat) :
    Except GenError (GenOut T) :=
  genIterAux c rng fuel { current := c.start, ctr := 0 }

/-! ### Concrete chains used as witnesses and counterexamples -/

instance {ε : Type u} {α : Type u} [DecidableEq ε] [DecidableEq α] :
    DecidableEq (Except ε α) := fun x y =>
  match x, y with
  | .ok a, .ok b => decidable_of_iff (a = b) (by simp)
  | .error a, .error b => decidable_of_iff (a = b) (by simp)
  | .ok _, .error _ => isFalse (fun h => Except.noConfusion h)
  | .error _, .ok _ => isFalse (fun h => Except.noConfusion h)

/-- The chain obtained by feeding the single-token sequence `a`. -/
def chainA : Chain String := Chain.feed (Chain.new String) ["a"]

/-- The chain obtained by feeding the one-item sequences `[10]` and `[20]`:
the Start node has two outgoing weight-1 edges. -/
def chainTwoWords : Chain Nat := Chain.feed (Chain.feed (Chain.new Nat) [10]) [20]

/-- A chain whose only edge loops Start to Start, built with the public
`bump_edge` primitive (the import collaborator of the spec can do this). -/
def chainStartLoop : Chain Nat := Chain.bump_edge (Chain.new Nat) 0 0

/-- A chain in which the End node has an outgoing edge to a Data node,
built with the public `bump_edge`/`ensure_node` primitives:
Start → End (weight 1) and End → Data 7 (weight 1). -/
def chainEndOut : Chain Nat :=
  Chain.bump_edge ((Chain.bump_edge (Chain.new Nat) 0 1).ensure_node 7).1 1 2

/-- A chain whose Start → End edge carries the largest `u32` weight,
reachable by calling `bump_edge 0 1` on a fresh chain `2^32 − 1` times. -/
def chainMaxWeight : Chain Nat :=
  { graph := { nodes := [Item.Start, Item.End], edges := [(0, 1, u32Mod - 1)] }
    start := 0
    stop := 1
    words := [] }

/-! ### Edge-list lemmas -/

/-- The ordered key pairs (source, target) of an edge list. -/
def edgeKeys (es : List GEdge) : List (Nat × Nat) := es.map (fun e => (e.1, e.2.1))

theorem findEdgeWeight_updateEdgeList_self (a b w : Nat) :
    ∀ es : List GEdge, findEdgeWeight (updateEdgeList a b w es) a b = some w := by
  intro es
  induction es with
  | nil => simp [updateEdgeList, findEdgeWeight]
  | cons e es ih =>
    by_cases h : e.1 = a ∧ e.2.1 = b
    · simp [updateEdgeList, findEdgeWeight, h]
    · simp only [updateEdgeList, findEdgeWeight, if_neg h, ih]

theorem findEdgeWeight_updateEdgeList_other (a b p q w : Nat) (hne : ¬(p = a ∧ q = b)) :
    ∀ es : List GEdge,
      findEdgeWeight (updateEdgeList a b w es) p q = findEdgeWeight es p q := by
  have hne' : ¬(a = p ∧ b = q) := fun h => hne ⟨h.1.symm, h.2.symm⟩
  intro es
  induction es with
  | nil => simp [updateEdgeList, findEdgeWeight, hne']
  | cons e es ih =>
    by_cases h : e.1 = a ∧ e.2.1 = b
    · have hh : ¬(e.1 = p ∧ e.2.1 = q) := by
        intro hc
        exact hne' ⟨h.1 ▸ hc.1, h.2 ▸ hc.2⟩
      simp only [updateEdgeList, if_pos h, findEdgeWeight, if_neg hne', if_neg hh]
    · simp only [updateEdgeList, if_neg h, findEdgeWeight, ih]

theorem updateEdgeList_of_none (a b w : Nat) :
    ∀ es : List GEdge, findEdgeWeight es a b = none →
      updateEdgeList a b w es = es ++ [(a, b, w)] := by
  intro es
  induction es with
  | nil => intro _; rfl
  | cons e es ih =>
    intro hnone
    by_cases h : e.1 = a ∧ e.2.1 = b
    · simp [findEdgeWeight, h] at hnone
    · simp only [findEdgeWeight, if_neg h] at hnone
      simp only [updateEdgeList, if_neg h, ih hnone, List.cons_append]

theorem edgeKeys_updateEdgeList_of_some (a b w : Nat) :
    ∀ es : List GEdge, (findEdgeWeight es a b).isSome →
      edgeKeys (updateEdgeList a b w es) = edgeKeys es := by
  intro es
  induction es with
  | nil => intro h; simp [findEdgeWeight] at h
  | cons e es ih =>
    intro hsome
    by_cases h : e.1 = a ∧ e.2.1 = b
    · simp only [updateEdgeList, if_pos h, edgeKeys, List.map_cons]
      rw [h.1, h.2]
    · simp only [findEdgeWeight, if_neg h] at hsome
      simp only [updateEdgeList, if_neg h, edgeKeys, List.map_cons] at *
      rw [ih hsome]

theorem mem_updateEdgeList (a b w : Nat) :
    ∀ es : List GEdge, ∀ e' ∈ updateEdgeList a b w es, e' = (a, b, w) ∨ e' ∈ es := by
  intro es
  induction es with
  | nil => intro e' h; simp [updateEdgeList] at h; exact Or.inl h
  | cons e es ih =>
    intro e' h
    by_cases hc : e.1 = a ∧ e.2.1 = b
    · simp only [updateEdgeList, if_pos hc, List.mem_cons] at h
      rcases h with h | h
      · exact Or.inl h
      · exact Or.inr (List.mem_cons_of_mem _ h)
    · simp only [updateEdgeList, if_neg hc, List.mem_cons] at h
      rcases h with h | h
      · exact Or.inr (h ▸ List.mem_cons_self _ _)
      · rcases ih e' h with h' | h'
        · exact Or.inl h'
        · exact Or.inr (List.mem_cons_of_mem _ h')

theorem wordsGet_wordsInsert_self {T : Type u} [DecidableEq T]
    (k : Item T) (v : Nat) :
    ∀ ws : List (Item T × Nat), wordsGet (wordsInsert ws k v) k = some v := by
  intro ws
  induction ws with
  | nil => simp [wordsInsert, wordsGet]
  | cons p ps ih =>
    by_cases h : p.1 = k
    · simp [wordsInsert, wordsGet, h]
    · simp only [wordsInsert, if_neg h, wordsGet, ih]

/-! ### Claim C3: dedup idempotence of ensure_node -/

/-- C3: `ensure_node x` called twice with equal values returns the same
node id both times and creates exactly one Data node: a second call with
an equal item returns the first call's id and leaves the chain unchanged;
an absent-case call appends exactly the one node `Data x` and returns its
index; a present-case call mutates nothing and returns the recorded id. -/
theorem ensure_node_idempotent {T : Type u} [DecidableEq T] (c : Chain T) (x : T) :
    Chain.ensure_node (Chain.ensure_node c x).1 x = Chain.ensure_node c x ∧
    (wordsGet c.words (Item.Data x) = none →
      (Chain.ensure_node c x).1.graph.nodes = c.graph.nodes ++ [Item.Data x] ∧
      (Chain.ensure_node c x).2 = c.graph.nodes.length) ∧
    (∀ n, wordsGet c.words (Item.Data x) = some n → Chain.ensure_node c x = (c, n)) := by
  refine ⟨?_, ?_, ?_⟩
  · rcases h : wordsGet c.words (Item.Data x) with _ | n
    · simp only [Chain.ensure_node, h]
      rw [wordsGet_wordsInsert_self]
    · simp [Chain.ensure_node, h]
  · intro h
    simp [Chain.ensure_node, h]
  · intro n h
    simp [Chain.ensure_node, h]

/-- Witness for C3 at a fresh chain and the item 5. -/
theorem ensure_node_idempotent_witness :
    (Chain.ensure_node (Chain.new Nat) 5).1.graph.nodes =
      [Item.Start, Item.End] ++ [Item.Data 5] ∧
    (Chain.ensure_node (Chain.new Nat) 5).2 = 2 :=
  (ensure_node_idempotent (Chain.new Nat) 5).2.1 rfl

/-! ### Claims C4 and C10: bump_edge weight semantics -/

/-- C4 (amended): for any node ids `a`, `b`, `bump_edge a b` mutates only
the edge list — nodes, dedup map and the start/end ids are untouched.
When an edge `a → b` exists with weight `w` the new weight is
`(1 + w) % 2^32`, which is exactly `w + 1` whenever `w + 1 < 2^32`;
when no such edge exists, the edge `(a, b)` is appended with weight 1.
The weight of every other ordered pair is unchanged. -/
theorem bump_edge_spec {T : Type u} [DecidableEq T] (c : Chain T) (a b : Nat) :
    (Chain.bump_edge c a b).graph.nodes = c.graph.nodes ∧
    (Chain.bump_edge c a b).words = c.words ∧
    (Chain.bump_edge c a b).start = c.start ∧
    (Chain.bump_edge c a b).stop = c.stop ∧
    (∀ w, findEdgeWeight c.graph.edges a b = some w →
      findEdgeWeight (Chain.bump_edge c a b).graph.edges a b = some ((1 + w) % u32Mod) ∧
      (w + 1 < u32Mod → (1 + w) % u32Mod = w + 1)) ∧
    (findEdgeWeight c.graph.edges a b = none →
      (Chain.bump_edge c a b).graph.edges = c.graph.edges ++ [(a, b, 1)]) ∧
    (∀ p q : Nat, ¬(p = a ∧ q = b) →
      findEdgeWeight (Chain.bump_edge c a b).graph.edges p q =
        findEdgeWeight c.graph.edges p q) := by
  refine ⟨rfl, rfl, rfl, rfl, ?_, ?_, ?_⟩
  · intro w hw
    constructor
    · simp only [Chain.bump_edge, hw]
      exact findEdgeWeight_updateEdgeList_self _ _ _ _
    · intro hlt
      rw [Nat.add_comm 1 w]
      exact Nat.mod_eq_of_lt hlt
  · intro hnone
    simp only [Chain.bump_edge, hnone]
    exact updateEdgeList_of_none _ _ _ _ hnone
  · intro p q hne
    rcases hw : findEdgeWeight c.graph.edges a b with _ | w
    · simp only [Chain.bump_edge, hw]
      exact findEdgeWeight_updateEdgeList_other _ _ _ _ _ hne _
    · simp only [Chain.bump_edge, hw]
      exact findEdgeWeight_updateEdgeList_other _ _ _ _ _ hne _

/-- Witness for C4 at a fresh chain: the absent case creates the edge
`Start → End` with weight 1, and the pair (0, 0) is untouched. -/
theorem bump_edge_spec_witness :
    (Chain.bump_edge (Chain.new Nat) 0 1).graph.edges = [] ++ [(0, 1, 1)] ∧
    findEdgeWeight (Chain.bump_edge (Chain.new Nat) 0 1).graph.edges 0 0 =
      findEdgeWeight (Chain.new Nat).graph.edges 0 0 :=
  ⟨(bump_edge_spec (Chain.new Nat) 0 1).2.2.2.2.2.1 rfl,
   (bump_edge_spec (Chain.new Nat) 0 1).2.2.2.2.2.2 0 0 (by decide)⟩

/-- C4 counterexample: on the (reachable) chain whose `Start → End` edge
has weight `2^32 − 1`, `bump_edge 0 1` sets the weight to 0, not to the
old weight incremented by exactly 1. -/
theorem bump_edge_wrap_counterexample :
    findEdgeWeight chainMaxWeight.graph.edges 0 1 = some (u32Mod - 1) ∧
    findEdgeWeight (Chain.bump_edge chainMaxWeight 0 1).graph.edges 0 1 = some 0 ∧
    (0 : Nat) ≠ (u32Mod - 1) + 1 := by
  refine ⟨rfl, rfl, by decide⟩

/-- C10: `bump_edge` increments weights modulo `2^32`: an existing edge
of weight `w` moves to `(1 + w) % 2^32`; at `w = 2^32 − 1` the weight
wraps to 0, and below that bound the increment is exactly 1. -/
theorem bump_edge_wraps_u32 {T : Type u} [DecidableEq T] (c : Chain T) (a b w : Nat)
    (hw : findEdgeWeight c.graph.edges a b = some w) :
    findEdgeWeight (Chain.bump_edge c a b).graph.edges a b = some ((1 + w) % u32Mod) ∧
    (w = u32Mod - 1 → findEdgeWeight (Chain.bump_edge c a b).graph.edges a b = some 0) ∧
    (w + 1 < u32Mod → findEdgeWeight (Chain.bump_edge c a b).graph.edges a b = some (w + 1)) := by
  have hself : findEdgeWeight (Chain.bump_edge c a b).graph.edges a b =
      some ((1 + w) % u32Mod) := by
    simp only [Chain.bump_edge, hw]
    exact findEdgeWeight_updateEdgeList_self _ _ _ _
  refine ⟨hself, ?_, ?_⟩
  · intro hmax
    rw [hself, hmax]
    norm_num [u32Mod]
  · intro hlt
    rw [hself, Nat.add_comm 1 w, Nat.mod_eq_of_lt hlt]

/-- Witness for C10 on the maximal-weight chain: the weight wraps to 0. -/
theorem bump_edge_wraps_u32_witness :
    findEdgeWeight (Chain.bump_edge chainMaxWeight 0 1).graph.edges 0 1 = some 0 :=
  (bump_edge_wraps_u32 chainMaxWeight 0 1 (u32Mod - 1) rfl).2.1 rfl

/-! ### Walker lemmas -/

theorem pickEdge_isSome : ∀ (es : List GEdge) (r : Nat),
    r < natSumWeights es → (pickEdge es r).isSome := by
  intro es
  induction es with
  | nil => intro r h; simp [natSumWeights] at h
  | cons e es ih =>
    intro r h
    by_cases hc : r < e.2.2
    · simp [pickEdge, hc]
    · have hr : r - e.2.2 < natSumWeights es := by
        simp only [natSumWeights, List.foldr_cons] at h ⊢
        omega
      simp only [pickEdge, if_neg hc]
      exact ih _ hr

theorem sumWeights_foldl_le (es : List GEdge) : ∀ s : Nat,
    List.foldl (fun s e => (s + e.2.2) % u32Mod) s es ≤ s + natSumWeights es := by
  induction es with
  | nil => intro s; simp [natSumWeights]
  | cons e es ih =>
    intro s
    have h1 : List.foldl (fun s e => (s + e.2.2) % u32Mod) ((s + e.2.2) % u32Mod) es ≤
        (s + e.2.2) % u32Mod + natSumWeights es := ih _
    have h2 : (s + e.2.2) % u32Mod ≤ s + e.2.2 := Nat.mod_le _ _
    simp only [List.foldl_cons, natSumWeights, List.foldr_cons]
    simp only [natSumWeights] at h1
    omega

/-- The u32-accumulated total never exceeds the unbounded total. -/
theorem sumWeights_le_natSum (es : List GEdge) : sumWeights es ≤ natSumWeights es := by
  simpa using sumWeights_foldl_le es 0

theorem sumWeights_foldl_eq (es : List GEdge) : ∀ s : Nat,
    s + natSumWeights es < u32Mod →
    List.foldl (fun s e => (s + e.2.2) % u32Mod) s es = s + natSumWeights es := by
  induction es with
  | nil => intro s _; simp [natSumWeights]
  | cons e es ih =>
    intro s h
    simp only [natSumWeights, List.foldr_cons] at h
    have hle : s + e.2.2 < u32Mod := by omega
    simp only [List.foldl_cons, Nat.mod_eq_of_lt hle, natSumWeights, List.foldr_cons]
    have := ih (s + e.2.2) (by simp only [natSumWeights]; omega)
    simp only [natSumWeights] at this
    rw [this]
    omega

/-- When the true total stays below `2 ^ 32`, no addition wraps and the
u32-accumulated total equals the unbounded one. -/
theorem sumWeights_eq_natSum (es : List GEdge) (h : natSumWeights es < u32Mod) :
    sumWeights es = natSumWeights es := by
  simpa using sumWeights_foldl_eq es 0 (by simpa using h)

theorem pickEdge_mem : ∀ (es : List GEdge) (r : Nat) (e : GEdge),
    pickEdge es r = some e → e ∈ es := by
  intro es
  induction es with
  | nil => intro r e h; simp [pickEdge] at h
  | cons e' es ih =>
    intro r e h
    by_cases hc : r < e'.2.2
    · simp only [pickEdge, if_pos hc, Option.some.injEq] at h
      exact h ▸ List.mem_cons_self _ _
    · simp only [pickEdge, if_neg hc] at h
      exact List.mem_cons_of_mem _ (ih _ _ h)

theorem rwNext_no_outgoing {T : Type u} [DecidableEq T] (g : ChainGraph T)
    (rng : Nat → Nat) (w : RandomWalk) (h : outgoing g w.current = []) :
    rwNext g rng w = .ok none := by
  simp [rwNext, h]

theorem rwNext_error_cases {T : Type u} [DecidableEq T] (g : ChainGraph T)
    (rng : Nat → Nat) (w : RandomWalk) (err : GenError)
    (h : rwNext g rng w = .error err) :
    err = GenError.weightedIndexError ∨ err = GenError.sampleError := by
  unfold rwNext at h
  by_cases hlen : (outgoing g w.current).length = 0
  · simp [hlen] at h
  · rw [if_neg hlen] at h
    by_cases hz : sumWeights (outgoing g w.current) = 0
    · rw [if_pos hz] at h
      exact Or.inl (Except.error.inj h).symm
    · rw [if_neg hz] at h
      rcases hp : pickEdge (outgoing g w.current)
          (rng w.ctr % sumWeights (outgoing g w.current)) with _ | e
      · rw [hp] at h
        exact Or.inr (Except.error.inj h).symm
      · rw [hp] at h
        exact absurd h (by simp)

theorem rwNext_ok_some {T : Type u} [DecidableEq T] (g : ChainGraph T)
    (rng : Nat → Nat) (w : RandomWalk) (idx : Nat) (w' : RandomWalk)
    (h : rwNext g rng w = .ok (some (idx, w'))) :
    (∃ e ∈ g.edges, e.1 = w.current ∧ e.2.1 = idx) ∧
      w' = { current := idx, ctr := w.ctr + 1 } := by
  unfold rwNext at h
  by_cases hlen : (outgoing g w.current).length = 0
  · simp [hlen] at h
  · rw [if_neg hlen] at h
    by_cases hz : sumWeights (outgoing g w.current) = 0
    · rw [if_pos hz] at h
      exact absurd h (by simp)
    · rw [if_neg hz] at h
      rcases hp : pickEdge (outgoing g w.current)
          (rng w.ctr % sumWeights (outgoing g w.current)) with _ | e
      · rw [hp] at h
        exact absurd h (by simp)
      · rw [hp] at h
        simp only [Except.ok.injEq, Option.some.injEq, Prod.mk.injEq] at h
        have hmem : e ∈ outgoing g w.current := pickEdge_mem _ _ _ hp
        have hedge : e ∈ g.edges := List.mem_of_mem_filter hmem
        have hsrc : e.1 = w.current := by
          have := List.of_mem_filter hmem
          simpa using this
        refine ⟨⟨e, hedge, hsrc, h.1⟩, ?_⟩
        rw [← h.2, ← h.1]

theorem sumWeights_pos_of_weights {T : Type u} [DecidableEq T] (g : ChainGraph T)
    (a : Nat) (hw : ∀ e ∈ g.edges, 1 ≤ e.2.2)
    (hnw : natSumWeights (outgoing g a) < u32Mod) (hne : outgoing g a ≠ []) :
    sumWeights (outgoing g a) ≠ 0 := by
  rw [sumWeights_eq_natSum _ hnw]
  rcases hout : outgoing g a with _ | ⟨e, es⟩
  · exact absurd hout hne
  · have hmem : e ∈ g.edges :=
      List.mem_of_mem_filter (hout ▸ List.mem_cons_self e es)
    have := hw e hmem
    simp only [natSumWeights, List.foldr_cons]
    omega

/-! ### Claim C7: the weighted-distribution contract of the walker -/

/-- C7 (amended): when the outgoing edge list of the current node is
non-empty but its u32-accumulated total weight is zero — because all
weights are zero, or because the wrapping total of positive weights
lands on a multiple of `2 ^ 32` — the walker's distribution
construction fails with the internal `WeightedIndex` error (it does not
fall back to a uniform draw); and whenever every edge weight in the
graph is at least 1 and the true total of the outgoing weights stays
below `2 ^ 32`, this failure branch is unreachable — `RandomWalk::next`
never errors.  Under the weight-at-least-1 invariant alone the branch
is reachable: the total can wrap (see the counterexample). -/
theorem weighted_index_contract {T : Type u} [DecidableEq T] (g : ChainGraph T)
    (rng : Nat → Nat) (w : RandomWalk) :
    (outgoing g w.current ≠ [] → sumWeights (outgoing g w.current) = 0 →
      rwNext g rng w = .error .weightedIndexError) ∧
    ((∀ e ∈ g.edges, 1 ≤ e.2.2) → natSumWeights (outgoing g w.current) < u32Mod →
      ∀ err : GenError, rwNext g rng w ≠ .error err) := by
  constructor
  · intro hne hzero
    have hlen : ¬(outgoing g w.current).length = 0 := by
      simpa [List.length_eq_zero] using hne
    simp only [rwNext, if_neg hlen, if_pos hzero]
  · intro hw hnw err
    by_cases hlen : (outgoing g w.current).length = 0
    · simp [rwNext, hlen]
    · have hne : outgoing g w.current ≠ [] := by
        simpa [List.length_eq_zero] using hlen
      have hz := sumWeights_pos_of_weights g w.current hw hnw hne
      have hr : rng w.ctr % sumWeights (outgoing g w.current) <
          sumWeights (outgoing g w.current) :=
        Nat.mod_lt _ (Nat.pos_of_ne_zero hz)
      have hsome := pickEdge_isSome _ _
        (Nat.lt_of_lt_of_le hr (sumWeights_le_natSum _))
      rcases hp : pickEdge (outgoing g w.current)
          (rng w.ctr % sumWeights (outgoing g w.current)) with _ | e
      · rw [hp] at hsome
        simp at hsome
      · simp only [rwNext, if_neg hlen, if_neg hz, hp]
        simp

/-- A graph with a single zero-weight edge out of Start (not producible
by the ingestion API; it exercises the failure branch of C7). -/
def graphZeroWeight : ChainGraph Nat :=
  { nodes := [Item.Start, Item.End], edges := [(0, 1, 0)] }

/-- A graph whose Start node has two outgoing edges of weight `2 ^ 31`
each, reachable by `2 ^ 31` `bump_edge` calls per edge: every weight is
positive, yet the u32-accumulated total wraps to 0. -/
def graphWrapWeight : ChainGraph Nat :=
  { nodes := [Item.Start, Item.End, Item.Data 7]
    edges := [(0, 1, 2 ^ 31), (0, 2, 2 ^ 31)] }

/-- C7 counterexample: a graph in which every edge weight is at least 1
but whose outgoing totals wrap to a multiple of `2 ^ 32`: the
`WeightedIndex` construction fails and the walker errors, so under the
weight-at-least-1 invariant alone the failure branch is reachable, not
unreachable as the claim states. -/
theorem weighted_index_wrap_counterexample :
    (∀ e ∈ graphWrapWeight.edges, 1 ≤ e.2.2) ∧
    outgoing graphWrapWeight 0 ≠ [] ∧
    rwNext graphWrapWeight (fun _ => 0) { current := 0, ctr := 0 } =
      .error .weightedIndexError := by
  refine ⟨by decide, by decide, by decide⟩

/-- Witness for C7: the zero-weight graph makes the walker error, and on
a fed chain (all weights 1, total 2) the walker never errors. -/
theorem weighted_index_contract_witness :
    rwNext graphZeroWeight (fun _ => 0) { current := 0, ctr := 0 } =
      .error .weightedIndexError ∧
    rwNext chainTwoWords.graph (fun _ => 0) { current := 0, ctr := 0 } ≠
      .error .weightedIndexError :=
  ⟨(weighted_index_contract graphZeroWeight (fun _ => 0) { current := 0, ctr := 0 }).1
      (by decide) (by decide),
   (weighted_index_contract chainTwoWords.graph (fun _ => 0) { current := 0, ctr := 0 }).2
      (by decide) (by decide) .weightedIndexError⟩

/-! ### Claim C6: observing Start as a walk target -/

theorem except_map_ne_error {T : Type u} (x : Except GenError (GenOut T))
    (f : GenOut T → GenOut T) (err : GenError) (hx : x ≠ .error err) :
    x.map f ≠ .error err := by
  rcases x with e | v
  · intro h
    exact hx (by simpa [Except.map] using h)
  · simp [Except.map]

/-- C6 (amended): the two generation interfaces treat a Start node seen
as a walk target differently.  `generate_iter` aborts with the
distinguishable internal signal (the `unreachable!()` panic), but the
`generate` loop never raises that signal: when the walk steps onto
Start, `generate` breaks out of its loop and returns the items collected
so far, exactly as if End had been reached — the violation is silently
masked as normal termination there. -/
theorem start_target_behavior {T : Type u} [DecidableEq T] :
    (∀ (c : Chain T) (rng : Nat → Nat) (fuel : Nat) (w : RandomWalk),
      generateAux c rng fuel w ≠ .error .startUnreachable) ∧
    (∀ (c : Chain T) (rng : Nat → Nat) (fuel : Nat) (w : RandomWalk)
      (idx : Nat) (w' : RandomWalk),
      rwNext c.graph rng w = .ok (some (idx, w')) →
      c.graph.nodes[idx]? = some Item.Start →
      genIterAux c rng (fuel + 1) w = .error .startUnreachable ∧
      generateAux c rng (fuel + 1) w = .ok (.done [])) := by
  constructor
  · intro c rng fuel
    induction fuel with
    | zero => intro w; simp [generateAux]
    | succ fuel ih =>
      intro w
      rcases hstep : rwNext c.graph rng w with err | step
      · rcases rwNext_error_cases c.graph rng w err hstep with h | h <;>
          simp [generateAux, hstep, h]
      · rcases step with _ | ⟨idx, w'⟩
        · simp [generateAux, hstep]
        · rcases hnode : c.graph.nodes[idx]? with _ | item
          · simp [generateAux, hstep, hnode]
          · rcases item with _ | _ | t
            · simp [generateAux, hstep, hnode]
            · simp [generateAux, hstep, hnode]
            · simp only [generateAux, hstep, hnode]
              exact except_map_ne_error _ _ _ (ih w')
  · intro c rng fuel w idx w' hstep hnode
    constructor
    · simp [genIterAux, hstep, hnode]
    · simp [generateAux, hstep, hnode]

/-- Witness for C6 on the Start-self-loop chain: its first walk step
targets Start, so the lazy sequence aborts while the eager loop returns
an empty result. -/
theorem start_target_behavior_witness :
    genIterAux chainStartLoop (fun _ => 0) 1 { current := 0, ctr := 0 } =
      .error .startUnreachable ∧
    generateAux chainStartLoop (fun _ => 0) 1 { current := 0, ctr := 0 } =
      .ok (.done []) :=
  (start_target_behavior.2 chainStartLoop (fun _ => 0) 0
    { current := 0, ctr := 0 } 0 { current := 0, ctr := 1 } rfl rfl)

/-- C6 counterexample: on the chain whose single edge loops Start to
Start (built with the public `bump_edge`), `generate` does not abort
with an internal-error signal — it returns the normal, empty outcome,
masking the violation as termination, while `generate_iter` aborts. -/
theorem generate_masks_start_target :
    generateFn chainStartLoop (fun _ => 0) 1 = .ok (.done []) ∧
    genIterFn chainStartLoop (fun _ => 0) 1 = .error .startUnreachable :=
  ⟨rfl, rfl⟩

/-! ### Claim C5: single-token round trip -/

theorem rwNext_single {T : Type u} [DecidableEq T] (g : ChainGraph T) (rng : Nat → Nat)
    (w : RandomWalk) (a b wt : Nat) (hog : outgoing g w.current = [(a, b, wt)])
    (hwt : 0 < wt) (hwtlt : wt < u32Mod) :
    rwNext g rng w = .ok (some (b, { current := b, ctr := w.ctr + 1 })) := by
  have hsum : sumWeights [(a, b, wt)] = wt := by
    simp [sumWeights, Nat.mod_eq_of_lt hwtlt]
  have hr : rng w.ctr % wt < wt := Nat.mod_lt _ hwt
  simp only [rwNext, hog, hsum]
  rw [if_neg (by simp), if_neg (by omega)]
  simp [pickEdge, hr]

/-- C5: feeding the single-token sequence consisting of the token a into
a fresh chain makes Start → a → End the only path, so `generate` returns
exactly that token under every draw stream, for any fuel bound covering
the walk's two steps. -/
theorem single_token_round_trip (rng : Nat → Nat) (fuel : Nat) (hfuel : 2 ≤ fuel) :
    generateFn (Chain.feed (Chain.new String) ["a"]) rng fuel = .ok (.done ["a"]) := by
  obtain ⟨k, rfl⟩ : ∃ k, fuel = k + 1 + 1 := ⟨fuel - 2, by omega⟩
  have h1 := rwNext_single chainA.graph rng ⟨0, 0⟩ 0 2 1 rfl one_pos
    (by norm_num [u32Mod])
  have h2 := rwNext_single chainA.graph rng ⟨2, 1⟩ 2 1 1 rfl one_pos
    (by norm_num [u32Mod])
  have hn2 : chainA.graph.nodes[2]? = some (Item.Data ("a")) := rfl
  have hn1 : chainA.graph.nodes[1]? = some Item.End := rfl
  show generateAux chainA rng (k + 1 + 1) ⟨0, 0⟩ = .ok (.done ["a"])
  simp only [generateAux, h1, hn2, h2, hn1]
  simp [Except.map, GenOut.cons]

/-- Witness for C5 with the all-zero draw stream and fuel 2. -/
theorem single_token_round_trip_witness :
    generateFn (Chain.feed (Chain.new String) ["a"]) (fun _ => 0) 2 = .ok (.done ["a"]) :=
  single_token_round_trip (fun _ => 0) 2 (by omega)

/-! ### Claim C9: determinism and the randomness source -/

theorem rwNext_congr {T : Type u} [DecidableEq T] (g : ChainGraph T)
    (rngA rngB : Nat → Nat) (h : ∀ n, rngA n = rngB n) (w : RandomWalk) :
    rwNext g rngA w = rwNext g rngB w := by
  simp only [rwNext, h]

theorem generateAux_congr {T : Type u} [DecidableEq T] (c : Chain T)
    (rngA rngB : Nat → Nat) (h : ∀ n, rngA n = rngB n) :
    ∀ (fuel : Nat) (w : RandomWalk),
      generateAux c rngA fuel w = generateAux c rngB fuel w := by
  intro fuel
  induction fuel with
  | zero => intro w; rfl
  | succ fuel ih =>
    intro w
    have hA := rwNext_congr c.graph rngA rngB h w
    rcases hstep : rwNext c.graph rngB w with err | step
    · rw [hstep] at hA
      simp [generateAux, hA, hstep]
    · rw [hstep] at hA
      rcases step with _ | ⟨idx, w'⟩
      · simp [generateAux, hA, hstep]
      · rcases hn : c.graph.nodes[idx]? with _ | item
        · simp [generateAux, hA, hstep, hn]
        · rcases item with _ | _ | t <;> simp [generateAux, hA, hstep, hn, ih w']

theorem genIterAux_congr {T : Type u} [DecidableEq T] (c : Chain T)
    (rngA rngB : Nat → Nat) (h : ∀ n, rngA n = rngB n) :
    ∀ (fuel : Nat) (w : RandomWalk),
      genIterAux c rngA fuel w = genIterAux c rngB fuel w := by
  intro fuel
  induction fuel with
  | zero => intro w; rfl
  | succ fuel ih =>
    intro w
    have hA := rwNext_congr c.graph rngA rngB h w
    rcases hstep : rwNext c.graph rngB w with err | step
    · rw [hstep] at hA
      simp [genIterAux, hA, hstep]
    · rw [hstep] at hA
      rcases step with _ | ⟨idx, w'⟩
      · simp [genIterAux, hA, hstep]
      · rcases hn : c.graph.nodes[idx]? with _ | item
        · simp [genIterAux, hA, hstep, hn]
        · rcases item with _ | _ | t <;> simp [genIterAux, hA, hstep, hn, ih w']

/-- C9 (amended): generation is a pure function of the graph and the
stream of random draws: walks whose randomness sources produce the same
draws yield identical sequences, for both interfaces.  (The seedable
entry point is `RandomWalk::with_rng`; `generate`/`generate_iter`
themselves always consult the ambient thread-local generator, so two
independent `generate()` calls draw independent streams and need not
agree — see the counterexample.) -/
theorem walk_deterministic_in_draws {T : Type u} [DecidableEq T] (c : Chain T)
    (rngA rngB : Nat → Nat) (h : ∀ n, rngA n = rngB n) (fuel : Nat) :
    generateFn c rngA fuel = generateFn c rngB fuel ∧
    genIterFn c rngA fuel = genIterFn c rngB fuel :=
  ⟨generateAux_congr c rngA rngB h fuel _, genIterAux_congr c rngA rngB h fuel _⟩

/-- Witness for C9 on the two-word chain with two equal draw streams. -/
theorem walk_deterministic_in_draws_witness :
    generateFn chainTwoWords (fun _ => 0) 3 = generateFn chainTwoWords (fun n => 0 * n) 3 :=
  (walk_deterministic_in_draws chainTwoWords (fun _ => 0) (fun n => 0 * n)
    (fun n => (Nat.zero_mul n).symm) 3).1

/-- C9 counterexample: `generate()` is not seed-deterministic — it uses
the ambient thread-local generator, and two calls whose generators
produce different draws return different sequences on the two-word
chain. -/
theorem generate_not_seed_deterministic :
    generateFn chainTwoWords (fun _ => 0) 3 = .ok (.done [10]) ∧
    generateFn chainTwoWords (fun _ => 1) 3 = .ok (.done [20]) ∧
    generateFn chainTwoWords (fun _ => 0) 3 ≠ generateFn chainTwoWords (fun _ => 1) 3 := by
  refine ⟨rfl, rfl, by decide⟩

/-! ### Claim C1: feed threads a chain through the graph -/

/-- Id well-formedness of a chain, as established by `new` and preserved
by all operations: Start is node 0, End is node 1, both exist, and the
dedup map only records Data nodes (ids at least 2). -/
def Chain.WFIds {T : Type u} [DecidableEq T] (c : Chain T) : Prop :=
  c.start = 0 ∧ c.stop = 1 ∧ 2 ≤ c.graph.nodes.length ∧ ∀ p ∈ c.words, 2 ≤ p.2

instance {T : Type u} [DecidableEq T] (c : Chain T) : Decidable (Chain.WFIds c) :=
  inferInstanceAs (Decidable (_ ∧ _ ∧ _ ∧ ∀ p ∈ c.words, 2 ≤ p.2))

theorem bump_edge_start {T : Type u} [DecidableEq T] (c : Chain T) (a b : Nat) :
    (Chain.bump_edge c a b).start = c.start := rfl

theorem bump_edge_stop {T : Type u} [DecidableEq T] (c : Chain T) (a b : Nat) :
    (Chain.bump_edge c a b).stop = c.stop := rfl

theorem bump_edge_words {T : Type u} [DecidableEq T] (c : Chain T) (a b : Nat) :
    (Chain.bump_edge c a b).words = c.words := rfl

theorem bump_edge_nodes {T : Type u} [DecidableEq T] (c : Chain T) (a b : Nat) :
    (Chain.bump_edge c a b).graph.nodes = c.graph.nodes := rfl

theorem ensure_node_start {T : Type u} [DecidableEq T] (c : Chain T) (x : T) :
    (Chain.ensure_node c x).1.start = c.start := by
  rcases h : wordsGet c.words (Item.Data x) with _ | n <;> simp [Chain.ensure_node, h]

theorem ensure_node_stop {T : Type u} [DecidableEq T] (c : Chain T) (x : T) :
    (Chain.ensure_node c x).1.stop = c.stop := by
  rcases h : wordsGet c.words (Item.Data x) with _ | n <;> simp [Chain.ensure_node, h]

theorem ensure_node_edges {T : Type u} [DecidableEq T] (c : Chain T) (x : T) :
    (Chain.ensure_node c x).1.graph.edges = c.graph.edges := by
  rcases h : wordsGet c.words (Item.Data x) with _ | n <;> simp [Chain.ensure_node, h]

theorem wordsGet_some_mem {T : Type u} [DecidableEq T] (k : Item T) (n : Nat) :
    ∀ ws : List (Item T × Nat), wordsGet ws k = some n → ∃ p ∈ ws, p.2 = n := by
  intro ws
  induction ws with
  | nil => intro h; simp [wordsGet] at h
  | cons p ps ih =>
    intro h
    by_cases hc : p.1 = k
    · simp only [wordsGet, if_pos hc, Option.some.injEq] at h
      exact ⟨p, List.mem_cons_self _ _, h⟩
    · simp only [wordsGet, if_neg hc] at h
      rcases ih h with ⟨q, hq, hq2⟩
      exact ⟨q, List.mem_cons_of_mem _ hq, hq2⟩

theorem mem_wordsInsert {T : Type u} [DecidableEq T] (k : Item T) (v : Nat) :
    ∀ (ws : List (Item T × Nat)) (p : Item T × Nat),
      p ∈ wordsInsert ws k v → p = (k, v) ∨ p ∈ ws := by
  intro ws
  induction ws with
  | nil => intro p h; simp [wordsInsert] at h; exact Or.inl h
  | cons q ps ih =>
    intro p h
    by_cases hc : q.1 = k
    · simp only [wordsInsert, if_pos hc, List.mem_cons] at h
      rcases h with h | h
      · exact Or.inl h
      · exact Or.inr (List.mem_cons_of_mem _ h)
    · simp only [wordsInsert, if_neg hc, List.mem_cons] at h
      rcases h with h | h
      · exact Or.inr (h ▸ List.mem_cons_self _ _)
      · rcases ih p h with h' | h'
        · exact Or.inl h'
        · exact Or.inr (List.mem_cons_of_mem _ h')

theorem ensure_node_WF {T : Type u} [DecidableEq T] (c : Chain T) (x : T)
    (h : Chain.WFIds c) : Chain.WFIds (Chain.ensure_node c x).1 := by
  obtain ⟨h0, h1, h2, h3⟩ := h
  rcases hg : wordsGet c.words (Item.Data x) with _ | n
  · refine ⟨?_, ?_, ?_, ?_⟩ <;> simp only [Chain.ensure_node, hg]
    · exact h0
    · exact h1
    · simp only [List.length_append, List.length_cons, List.length_nil]
      omega
    · intro p hp
      rcases mem_wordsInsert _ _ _ _ hp with h' | h'
      · rw [h']
        exact h2
      · exact h3 p h'
  · simp only [Chain.ensure_node, hg]
    exact ⟨h0, h1, h2, h3⟩

theorem ensure_node_ge_two {T : Type u} [DecidableEq T] (c : Chain T) (x : T)
    (h : Chain.WFIds c) : 2 ≤ (Chain.ensure_node c x).2 := by
  obtain ⟨_, _, h2, h3⟩ := h
  rcases hg : wordsGet c.words (Item.Data x) with _ | n
  · simpa [Chain.ensure_node, hg] using h2
  · rcases wordsGet_some_mem _ _ _ hg with ⟨p, hp, hp2⟩
    simpa [Chain.ensure_node, hg, ← hp2] using h3 p hp

theorem bump_edge_WF {T : Type u} [DecidableEq T] (c : Chain T) (a b : Nat)
    (h : Chain.WFIds c) : Chain.WFIds (Chain.bump_edge c a b) := h

theorem feedAux_WF {T : Type u} [DecidableEq T] (items : List T) :
    ∀ (c : Chain T) (prev : Nat), Chain.WFIds c →
      Chain.WFIds (Chain.feedAux c prev items).1 := by
  induction items with
  | nil => intro c prev h; exact h
  | cons x xs ih =>
    intro c prev h
    exact ih _ _ (bump_edge_WF _ _ _ (ensure_node_WF c x h))

theorem feedAux_fields {T : Type u} [DecidableEq T] (items : List T) :
    ∀ (c : Chain T) (prev : Nat),
      (Chain.feedAux c prev items).1.start = c.start ∧
      (Chain.feedAux c prev items).1.stop = c.stop := by
  induction items with
  | nil => intro c prev; exact ⟨rfl, rfl⟩
  | cons x xs ih =>
    intro c prev
    have h := ih (Chain.bump_edge (Chain.ensure_node c x).1 prev
      (Chain.ensure_node c x).2) (Chain.ensure_node c x).2
    refine ⟨?_, ?_⟩
    · rw [Chain.feedAux, h.1, bump_edge_start, ensure_node_start]
    · rw [Chain.feedAux, h.2, bump_edge_stop, ensure_node_stop]

theorem feedAux_last_ge_two {T : Type u} [DecidableEq T] (xs : List T) :
    ∀ (c : Chain T) (prev : Nat), Chain.WFIds c → 2 ≤ prev ∨ xs ≠ [] →
      2 ≤ (Chain.feedAux c prev xs).2 ∨ xs = [] ∧ (Chain.feedAux c prev xs).2 = prev := by
  induction xs with
  | nil => intro c prev _ _; exact Or.inr ⟨rfl, rfl⟩
  | cons x xs ih =>
    intro c prev h _
    have hx := ensure_node_ge_two c x h
    have hwf := bump_edge_WF (Chain.ensure_node c x).1 prev (Chain.ensure_node c x).2
      (ensure_node_WF c x h)
    rcases ih _ (Chain.ensure_node c x).2 hwf (Or.inl hx) with h' | ⟨hnil, hval⟩
    · exact Or.inl h'
    · left
      rw [Chain.feedAux]
      rw [hnil] at hval ⊢
      rw [hval]
      exact hx

/-- The ingestion contract in the spec's words for C1: starting with the
Start node as previous, run the feed loop over the items; afterwards, if
at least one item was consumed, bump an edge from the final item's node
to the End node; an empty sequence leaves the chain unchanged. -/
def Chain.feedSpec {T : Type u} [DecidableEq T] (c : Chain T) (items : List T) : Chain T :=
  match items with
  | [] => c
  | _ :: _ =>
    let r := Chain.feedAux c c.start items
    Chain.bump_edge r.1 r.2 c.stop

/-- C1: on every well-formed chain, `feed` behaves as the spec says:
the loop threads Start → item₁ → … → itemₙ through the graph (ensuring
each node and bumping each edge in turn), the final item's node gets an
edge bumped to End exactly when the sequence was non-empty, and feeding
an empty sequence returns the chain unchanged (in particular no
Start → End edge is created). -/
theorem feed_matches_spec {T : Type u} [DecidableEq T] (c : Chain T) (items : List T)
    (h : Chain.WFIds c) :
    Chain.feed c items = Chain.feedSpec c items ∧ Chain.feed c [] = c := by
  have hempty : Chain.feed c [] = c := by
    simp [Chain.feed, Chain.feedAux]
  refine ⟨?_, hempty⟩
  rcases items with _ | ⟨x, xs⟩
  · exact hempty
  · have hfields := feedAux_fields (x :: xs) c c.start
    have hge : 2 ≤ (Chain.feedAux c c.start (x :: xs)).2 := by
      rcases feedAux_last_ge_two (x :: xs) c c.start h (Or.inr (by simp)) with h' | ⟨hnil, _⟩
      · exact h'
      · exact absurd hnil (by simp)
    have hne : (Chain.feedAux c c.start (x :: xs)).2 ≠
        (Chain.feedAux c c.start (x :: xs)).1.start := by
      have h0 : c.start = 0 := h.1
      rw [hfields.1]
      omega
    simp only [Chain.feed, Chain.feedSpec, if_pos hne]
    rw [hfields.2]

/-- Witness for C1: a fresh chain fed with two items, and the empty feed
leaving the fresh chain untouched. -/
theorem feed_matches_spec_witness :
    Chain.feed (Chain.new Nat) [5, 6] = Chain.feedSpec (Chain.new Nat) [5, 6] ∧
    Chain.feed (Chain.new Nat) [] = Chain.new Nat :=
  feed_matches_spec (Chain.new Nat) [5, 6] (by decide)

/-! ### Claim C8: edge invariants of the mutating operations -/

/-- The spec's edge invariant: at most one edge per ordered node pair,
and every weight is a positive integer. -/
def EdgeListInv (es : List GEdge) : Prop :=
  (edgeKeys es).Nodup ∧ ∀ e ∈ es, 1 ≤ e.2.2

instance (es : List GEdge) : Decidable (EdgeListInv es) :=
  inferInstanceAs (Decidable ((edgeKeys es).Nodup ∧ ∀ e ∈ es, 1 ≤ e.2.2))

/-- Weight headroom: every weight can absorb `k` more increments before
reaching the `u32` wrap. -/
def Headroom (es : List GEdge) (k : Nat) : Prop :=
  ∀ e ∈ es, e.2.2 + k < u32Mod

instance (es : List GEdge) (k : Nat) : Decidable (Headroom es k) :=
  inferInstanceAs (Decidable (∀ e ∈ es, e.2.2 + k < u32Mod))

theorem findEdgeWeight_some_mem (a b w : Nat) :
    ∀ es : List GEdge, findEdgeWeight es a b = some w → (a, b, w) ∈ es := by
  intro es
  induction es with
  | nil => intro h; simp [findEdgeWeight] at h
  | cons e es ih =>
    intro h
    by_cases hc : e.1 = a ∧ e.2.1 = b
    · simp only [findEdgeWeight, if_pos hc, Option.some.injEq] at h
      rcases e with ⟨ea, eb, ew⟩
      obtain ⟨h1, h2⟩ := hc
      simp only at h1 h2 h
      rw [← h1, ← h2, ← h]
      exact List.mem_cons_self _ _
    · simp only [findEdgeWeight, if_neg hc] at h
      exact List.mem_cons_of_mem _ (ih h)

theorem findEdgeWeight_none_keys (a b : Nat) :
    ∀ es : List GEdge, findEdgeWeight es a b = none → (a, b) ∉ edgeKeys es := by
  intro es
  induction es with
  | nil => intro _ h; simp [edgeKeys] at h
  | cons e es ih =>
    intro hn h
    by_cases hc : e.1 = a ∧ e.2.1 = b
    · simp [findEdgeWeight, hc] at hn
    · simp only [findEdgeWeight, if_neg hc] at hn
      simp only [edgeKeys, List.map_cons, List.mem_cons] at h
      rcases h with h | h
      · exact hc ⟨(Prod.mk.injEq _ _ _ _ ▸ h.symm).1, (Prod.mk.injEq _ _ _ _ ▸ h.symm).2⟩
      · exact ih hn h

theorem bump_edge_list_inv {T : Type u} [DecidableEq T] (c : Chain T) (a b k : Nat)
    (hk : k + 1 < u32Mod) (hinv : EdgeListInv c.graph.edges)
    (hroom : Headroom c.graph.edges (k + 1)) :
    EdgeListInv (Chain.bump_edge c a b).graph.edges ∧
    Headroom (Chain.bump_edge c a b).graph.edges k := by
  obtain ⟨hnodup, hpos⟩ := hinv
  rcases hw : findEdgeWeight c.graph.edges a b with _ | w
  · have heq : (Chain.bump_edge c a b).graph.edges = c.graph.edges ++ [(a, b, 1)] := by
      simp only [Chain.bump_edge, hw]
      exact updateEdgeList_of_none _ _ _ _ hw
    rw [heq]
    have hkeys : edgeKeys (c.graph.edges ++ [(a, b, 1)]) =
        edgeKeys c.graph.edges ++ [(a, b)] := by
      simp [edgeKeys]
    refine ⟨⟨?_, ?_⟩, ?_⟩
    · rw [hkeys, List.nodup_append]
      refine ⟨hnodup, List.nodup_singleton _, ?_⟩
      intro p hp hp1
      simp only [List.mem_singleton] at hp1
      exact findEdgeWeight_none_keys a b _ hw (hp1 ▸ hp)
    · intro e he
      rcases List.mem_append.1 he with h' | h'
      · exact hpos e h'
      · simp only [List.mem_singleton] at h'
        rw [h']
    · intro e he
      rcases List.mem_append.1 he with h' | h'
      · have := hroom e h'
        omega
      · simp only [List.mem_singleton] at h'
        rw [h']
        show 1 + k < u32Mod
        omega
  · have hmem : (a, b, w) ∈ c.graph.edges := findEdgeWeight_some_mem a b w _ hw
    have hwlt : w + (k + 1) < u32Mod := hroom _ hmem
    have hmod : (1 + w) % u32Mod = 1 + w := Nat.mod_eq_of_lt (by omega)
    have heq : (Chain.bump_edge c a b).graph.edges =
        updateEdgeList a b ((1 + w) % u32Mod) c.graph.edges := by
      simp only [Chain.bump_edge, hw]
    rw [heq]
    refine ⟨⟨?_, ?_⟩, ?_⟩
    · rw [edgeKeys_updateEdgeList_of_some a b _ _ (hw ▸ rfl)]
      exact hnodup
    · intro e he
      rcases mem_updateEdgeList _ _ _ _ e he with h' | h'
      · rw [h']
        simp only [hmod]
        omega
      · exact hpos e h'
    · intro e he
      rcases mem_updateEdgeList _ _ _ _ e he with h' | h'
      · rw [h']
        simp only [hmod]
        omega
      · have := hroom e h'
        omega

theorem feedAux_edge_inv {T : Type u} [DecidableEq T] (items : List T) :
    ∀ (c : Chain T) (prev : Nat), items.length + 2 < u32Mod →
      EdgeListInv c.graph.edges → Headroom c.graph.edges (items.length + 1) →
      EdgeListInv (Chain.feedAux c prev items).1.graph.edges ∧
      Headroom (Chain.feedAux c prev items).1.graph.edges 1 := by
  induction items with
  | nil => intro c prev _ hinv hroom; exact ⟨hinv, hroom⟩
  | cons x xs ih =>
    intro c prev hlen hinv hroom
    have hinv1 : EdgeListInv (Chain.ensure_node c x).1.graph.edges := by
      rw [ensure_node_edges]; exact hinv
    have hroom1 : Headroom (Chain.ensure_node c x).1.graph.edges (xs.length + 1 + 1) := by
      rw [ensure_node_edges]
      simpa [List.length_cons, Nat.add_assoc, Nat.add_comm] using hroom
    have hb := bump_edge_list_inv (Chain.ensure_node c x).1 prev
      (Chain.ensure_node c x).2 (xs.length + 1)
      (by simp only [List.length_cons] at hlen; omega) hinv1 hroom1
    exact ih _ _ (by simp only [List.length_cons] at hlen; omega) hb.1 hb.2

/-- C8 (amended): `new` establishes the edge invariant (it creates no
edges); `ensure_node` preserves it unconditionally (it never touches
edges); `bump_edge` preserves it and performs an exact +1 increment
provided the bumped weight has not reached `2^32 − 1` (headroom 1), and
`feed` of `n` items preserves it provided every weight has headroom for
the `n + 1` bumps the call performs.  Without the headroom hypotheses
the increment wraps (see the counterexample). -/
theorem ops_preserve_edge_invariants {T : Type u} [DecidableEq T] :
    EdgeListInv (Chain.new T).graph.edges ∧
    (∀ (c : Chain T) (x : T), EdgeListInv c.graph.edges →
      EdgeListInv (Chain.ensure_node c x).1.graph.edges) ∧
    (∀ (c : Chain T) (a b : Nat), EdgeListInv c.graph.edges →
      Headroom c.graph.edges 1 →
      EdgeListInv (Chain.bump_edge c a b).graph.edges ∧
      ∀ w, findEdgeWeight c.graph.edges a b = some w →
        findEdgeWeight (Chain.bump_edge c a b).graph.edges a b = some (w + 1)) ∧
    (∀ (c : Chain T) (items : List T), items.length + 2 < u32Mod →
      EdgeListInv c.graph.edges → Headroom c.graph.edges (items.length + 1) →
      EdgeListInv (Chain.feed c items).graph.edges) := by
  refine ⟨⟨List.nodup_nil, by intro e he; simp [Chain.new] at he⟩, ?_, ?_, ?_⟩
  · intro c x hinv
    rw [ensure_node_edges]
    exact hinv
  · intro c a b hinv hroom
    have h1 : (1 : Nat) + 1 < u32Mod := by norm_num [u32Mod]
    have hb := bump_edge_list_inv c a b 0 (by norm_num [u32Mod]) hinv
      (by simpa using hroom)
    refine ⟨hb.1, ?_⟩
    intro w hw
    have hmem : (a, b, w) ∈ c.graph.edges := findEdgeWeight_some_mem a b w _ hw
    have hwlt : w + 1 < u32Mod := hroom _ hmem
    have : findEdgeWeight (Chain.bump_edge c a b).graph.edges a b =
        some ((1 + w) % u32Mod) := by
      simp only [Chain.bump_edge, hw]
      exact findEdgeWeight_updateEdgeList_self _ _ _ _
    rw [this, Nat.add_comm 1 w, Nat.mod_eq_of_lt hwlt]
  · intro c items hlen hinv hroom
    have hfa := feedAux_edge_inv items c c.start hlen hinv hroom
    by_cases hif : (Chain.feedAux c c.start items).2 ≠ (Chain.feedAux c c.start items).1.start
    · have hb := bump_edge_list_inv (Chain.feedAux c c.start items).1
        (Chain.feedAux c c.start items).2 (Chain.feedAux c c.start items).1.stop 0
        (by norm_num [u32Mod]) hfa.1 (by simpa using hfa.2)
      simpa [Chain.feed, hif] using hb.1
    · simpa [Chain.feed, hif] using hfa.1

/-- Witness for C8: the invariant holds on a fresh chain fed with two
items, via each conjunct of the preservation theorem. -/
theorem ops_preserve_edge_invariants_witness :
    EdgeListInv (Chain.new Nat).graph.edges ∧
    EdgeListInv (Chain.feed (Chain.new Nat) [5, 6]).graph.edges :=
  ⟨(ops_preserve_edge_invariants (T := Nat)).1,
   (ops_preserve_edge_invariants (T := Nat)).2.2.2 (Chain.new Nat) [5, 6]
     (by norm_num [u32Mod]) (by decide) (by decide)⟩

/-- C8 counterexample: the max-weight chain satisfies the edge invariant,
yet `bump_edge` (with no headroom) breaks weight positivity by wrapping
the weight to 0, so preservation does not hold unconditionally. -/
theorem edge_invariant_broken_at_wrap :
    EdgeListInv chainMaxWeight.graph.edges ∧
    ¬ EdgeListInv (Chain.bump_edge chainMaxWeight 0 1).graph.edges := by
  constructor
  · exact ⟨by decide, by decide⟩
  · intro h
    have h0 : (0, 1, 0) ∈ (Chain.bump_edge chainMaxWeight 0 1).graph.edges := by
      have : (Chain.bump_edge chainMaxWeight 0 1).graph.edges = [(0, 1, 0)] := by decide
      rw [this]
      exact List.mem_singleton.2 rfl
    exact absurd (h.2 _ h0) (by decide)

/-! ### Claim C2: generate_iter against generate -/

theorem except_map_error_iff {T : Type u} (x : Except GenError (GenOut T))
    (f : GenOut T → GenOut T) (err : GenError) :
    x.map f = .error err ↔ x = .error err := by
  rcases x with e | v <;> simp [Except.map]

theorem outgoing_nil_of_no_source {T : Type u} [DecidableEq T] (g : ChainGraph T)
    (idx : Nat) (h : ∀ e ∈ g.edges, e.1 ≠ idx) : outgoing g idx = [] := by
  unfold outgoing
  rw [List.filter_eq_nil_iff]
  intro e he
  simpa using h e he

theorem generateAux_succ_err {T : Type u} [DecidableEq T] (c : Chain T) (rng : Nat → Nat)
    (fuel : Nat) (w : RandomWalk) (err : GenError)
    (hstep : rwNext c.graph rng w = .error err) :
    generateAux c rng (fuel + 1) w = .error err := by
  simp [generateAux, hstep]

theorem genIterAux_succ_err {T : Type u} [DecidableEq T] (c : Chain T) (rng : Nat → Nat)
    (fuel : Nat) (w : RandomWalk) (err : GenError)
    (hstep : rwNext c.graph rng w = .error err) :
    genIterAux c rng (fuel + 1) w = .error err := by
  simp [genIterAux, hstep]

theorem generateAux_succ_none {T : Type u} [DecidableEq T] (c : Chain T) (rng : Nat → Nat)
    (fuel : Nat) (w : RandomWalk) (hstep : rwNext c.graph rng w = .ok none) :
    generateAux c rng (fuel + 1) w = .ok (.done []) := by
  simp [generateAux, hstep]

theorem genIterAux_succ_none {T : Type u} [DecidableEq T] (c : Chain T) (rng : Nat → Nat)
    (fuel : Nat) (w : RandomWalk) (hstep : rwNext c.graph rng w = .ok none) :
    genIterAux c rng (fuel + 1) w = .ok (.done []) := by
  simp [genIterAux, hstep]

theorem generateAux_succ_invalid {T : Type u} [DecidableEq T] (c : Chain T) (rng : Nat → Nat)
    (fuel : Nat) (w w' : RandomWalk) (idx : Nat)
    (hstep : rwNext c.graph rng w = .ok (some (idx, w')))
    (hn : c.graph.nodes[idx]? = none) :
    generateAux c rng (fuel + 1) w = .error .invalidNode := by
  simp [generateAux, hstep, hn]

theorem genIterAux_succ_invalid {T : Type u} [DecidableEq T] (c : Chain T) (rng : Nat → Nat)
    (fuel : Nat) (w w' : RandomWalk) (idx : Nat)
    (hstep : rwNext c.graph rng w = .ok (some (idx, w')))
    (hn : c.graph.nodes[idx]? = none) :
    genIterAux c rng (fuel + 1) w = .error .invalidNode := by
  simp [genIterAux, hstep, hn]

theorem generateAux_succ_end {T : Type u} [DecidableEq T] (c : Chain T) (rng : Nat → Nat)
    (fuel : Nat) (w w' : RandomWalk) (idx : Nat)
    (hstep : rwNext c.graph rng w = .ok (some (idx, w')))
    (hn : c.graph.nodes[idx]? = some Item.End) :
    generateAux c rng (fuel + 1) w = .ok (.done []) := by
  simp [generateAux, hstep, hn]

theorem genIterAux_succ_end {T : Type u} [DecidableEq T] (c : Chain T) (rng : Nat → Nat)
    (fuel : Nat) (w w' : RandomWalk) (idx : Nat)
    (hstep : rwNext c.graph rng w = .ok (some (idx, w')))
    (hn : c.graph.nodes[idx]? = some Item.End) :
    genIterAux c rng (fuel + 1) w = genIterAux c rng fuel w' := by
  simp [genIterAux, hstep, hn]

theorem generateAux_succ_data {T : Type u} [DecidableEq T] (c : Chain T) (rng : Nat → Nat)
    (fuel : Nat) (w w' : RandomWalk) (idx : Nat) (t : T)
    (hstep : rwNext c.graph rng w = .ok (some (idx, w')))
    (hn : c.graph.nodes[idx]? = some (Item.Data t)) :
    generateAux c rng (fuel + 1) w = (generateAux c rng fuel w').map (GenOut.cons t) := by
  simp [generateAux, hstep, hn]

theorem genIterAux_succ_data {T : Type u} [DecidableEq T] (c : Chain T) (rng : Nat → Nat)
    (fuel : Nat) (w w' : RandomWalk) (idx : Nat) (t : T)
    (hstep : rwNext c.graph rng w = .ok (some (idx, w')))
    (hn : c.graph.nodes[idx]? = some (Item.Data t)) :
    genIterAux c rng (fuel + 1) w = (genIterAux c rng fuel w').map (GenOut.cons t) := by
  simp [genIterAux, hstep, hn]

theorem gen_equiv_aux {T : Type u} [DecidableEq T] (c : Chain T) (rng : Nat → Nat)
    (hEnd : ∀ e ∈ c.graph.edges, c.graph.nodes[e.1]? ≠ some Item.End)
    (hStart : ∀ e ∈ c.graph.edges, c.graph.nodes[e.2.1]? ≠ some Item.Start) :
    ∀ (fuel : Nat) (w : RandomWalk),
      (∀ l, generateAux c rng fuel w = .ok (.done l) →
        genIterAux c rng (fuel + 1) w = .ok (.done l)) ∧
      (∀ l, genIterAux c rng fuel w = .ok (.done l) →
        generateAux c rng fuel w = .ok (.done l)) ∧
      (∀ err, generateAux c rng fuel w = .error err ↔
        genIterAux c rng fuel w = .error err) := by
  intro fuel
  induction fuel with
  | zero =>
    intro w
    refine ⟨?_, ?_, ?_⟩
    · intro l h
      simp [generateAux] at h
    · intro l h
      simp [genIterAux] at h
    · intro err
      constructor <;> intro h
      · simp [generateAux] at h
      · simp [genIterAux] at h
  | succ fuel ih =>
    intro w
    rcases hstep : rwNext c.graph rng w with err' | step
    · refine ⟨?_, ?_, ?_⟩
      · intro l h
        rw [generateAux_succ_err c rng fuel w err' hstep] at h
        exact absurd h (by simp)
      · intro l h
        rw [genIterAux_succ_err c rng fuel w err' hstep] at h
        exact absurd h (by simp)
      · intro err
        rw [generateAux_succ_err c rng fuel w err' hstep,
          genIterAux_succ_err c rng fuel w err' hstep]
    · rcases step with _ | ⟨idx, w'⟩
      · refine ⟨?_, ?_, ?_⟩
        · intro l h
          rw [generateAux_succ_none c rng fuel w hstep] at h
          simp only [Except.ok.injEq, GenOut.done.injEq] at h
          rw [genIterAux_succ_none c rng (fuel + 1) w hstep, ← h]
        · intro l h
          rw [genIterAux_succ_none c rng fuel w hstep] at h
          simp only [Except.ok.injEq, GenOut.done.injEq] at h
          rw [generateAux_succ_none c rng fuel w hstep, ← h]
        · intro err
          rw [generateAux_succ_none c rng fuel w hstep,
            genIterAux_succ_none c rng fuel w hstep]
      · obtain ⟨⟨e, hmem, hsrc, htgt⟩, hw'⟩ := rwNext_ok_some c.graph rng w idx w' hstep
        rcases hn : c.graph.nodes[idx]? with _ | item
        · refine ⟨?_, ?_, ?_⟩
          · intro l h
            rw [generateAux_succ_invalid c rng fuel w w' idx hstep hn] at h
            exact absurd h (by simp)
          · intro l h
            rw [genIterAux_succ_invalid c rng fuel w w' idx hstep hn] at h
            exact absurd h (by simp)
          · intro err
            rw [generateAux_succ_invalid c rng fuel w w' idx hstep hn,
              genIterAux_succ_invalid c rng fuel w w' idx hstep hn]
        · rcases item with _ | _ | t
          · exact absurd (htgt ▸ hn) (hStart e hmem)
          · -- the walk stepped onto End: End has no outgoing edges, so
            -- the lazy sequence observes a dead end one pull later
            have hout : outgoing c.graph idx = [] :=
              outgoing_nil_of_no_source c.graph idx
                (fun e' he' hsrc' => hEnd e' he' (hsrc' ▸ hn))
            have hnone : rwNext c.graph rng w' = .ok none := by
              apply rwNext_no_outgoing
              rw [hw']
              exact hout
            refine ⟨?_, ?_, ?_⟩
            · intro l h
              rw [generateAux_succ_end c rng fuel w w' idx hstep hn] at h
              simp only [Except.ok.injEq, GenOut.done.injEq] at h
              rw [genIterAux_succ_end c rng (fuel + 1) w w' idx hstep hn,
                genIterAux_succ_none c rng fuel w' hnone, ← h]
            · intro l h
              rw [genIterAux_succ_end c rng fuel w w' idx hstep hn] at h
              rcases fuel with _ | f
              · simp [genIterAux] at h
              · rw [genIterAux_succ_none c rng f w' hnone] at h
                simp only [Except.ok.injEq, GenOut.done.injEq] at h
                rw [generateAux_succ_end c rng (f + 1) w w' idx hstep hn, ← h]
            · intro err
              rw [generateAux_succ_end c rng fuel w w' idx hstep hn,
                genIterAux_succ_end c rng fuel w w' idx hstep hn]
              constructor <;> intro h
              · exact absurd h (by simp)
              · rcases fuel with _ | f
                · simp [genIterAux] at h
                · rw [genIterAux_succ_none c rng f w' hnone] at h
                  exact absurd h (by simp)
          · -- the walk stepped onto a Data node: both sides emit it
            refine ⟨?_, ?_, ?_⟩
            · intro l h
              rw [generateAux_succ_data c rng fuel w w' idx t hstep hn] at h
              rcases hg : generateAux c rng fuel w' with e' | out
              · rw [hg] at h
                simp [Except.map] at h
              · rw [hg] at h
                rcases out with l' | l'
                · simp only [Except.map, Except.ok.injEq, GenOut.cons] at h
                  have hl : l = t :: l' := by
                    cases h
                    rfl
                  rw [genIterAux_succ_data c rng (fuel + 1) w w' idx t hstep hn,
                    (ih w').1 l' hg, hl]
                  simp [Except.map, GenOut.cons]
                · simp only [Except.map, Except.ok.injEq, GenOut.cons] at h
                  cases h
            · intro l h
              rw [genIterAux_succ_data c rng fuel w w' idx t hstep hn] at h
              rcases hg : genIterAux c rng fuel w' with e' | out
              · rw [hg] at h
                simp [Except.map] at h
              · rw [hg] at h
                rcases out with l' | l'
                · simp only [Except.map, Except.ok.injEq, GenOut.cons] at h
                  have hl : l = t :: l' := by
                    cases h
                    rfl
                  rw [generateAux_succ_data c rng fuel w w' idx t hstep hn,
                    (ih w').2.1 l' hg, hl]
                  simp [Except.map, GenOut.cons]
                · simp only [Except.map, Except.ok.injEq, GenOut.cons] at h
                  cases h
            · intro err
              rw [generateAux_succ_data c rng fuel w w' idx t hstep hn,
                genIterAux_succ_data c rng fuel w w' idx t hstep hn,
                except_map_error_iff, except_map_error_iff]
              exact (ih w').2.2 err


/-- C2 (amended): on every chain in which no edge leaves the End node
and no edge targets the Start node — as holds for every chain built by
`new` and `feed` — `generate_iter` has the same walk semantics as
`generate`: whenever the `generate` loop finishes with a list of items,
the lazy sequence finishes with the same items (it may pull the walker
once more to observe the dead end after End); whenever the lazy sequence
finishes, the loop finishes with the same items; and the two fail with
the same error in exactly the same cases (so the lazy sequence
terminates without erroring exactly when End or a dead-end is reached).
On chains with edges out of End the two differ — see the
counterexample. -/
theorem generate_iter_equiv_generate {T : Type u} [DecidableEq T] (c : Chain T)
    (rng : Nat → Nat)
    (hEnd : ∀ e ∈ c.graph.edges, c.graph.nodes[e.1]? ≠ some Item.End)
    (hStart : ∀ e ∈ c.graph.edges, c.graph.nodes[e.2.1]? ≠ some Item.Start)
    (fuel : Nat) :
    (∀ l, generateFn c rng fuel = .ok (.done l) →
      genIterFn c rng (fuel + 1) = .ok (.done l)) ∧
    (∀ l, genIterFn c rng fuel = .ok (.done l) →
      generateFn c rng fuel = .ok (.done l)) ∧
    (∀ err, generateFn c rng fuel = .error err ↔ genIterFn c rng fuel = .error err) :=
  gen_equiv_aux c rng hEnd hStart fuel { current := c.start, ctr := 0 }

/-- Witness for C2 on the single-token chain: the loop result carries
over to the lazy sequence. -/
theorem generate_iter_equiv_generate_witness :
    genIterFn chainA (fun _ => 0) 3 = .ok (.done ["a"]) :=
  (generate_iter_equiv_generate chainA (fun _ => 0) (by decide) (by decide) 2).1
    ["a"] rfl

/-- C2 counterexample: on the chain with edges Start → End and
End → Data 7 (buildable through the public `bump_edge`/`ensure_node`
interface), `generate` stops at End with no items, while `generate_iter`
skips End, keeps walking, and yields the item 7: the lazy sequence does
not produce the payloads `generate` collects, and it does not terminate
when the walk first reaches End. -/
theorem generate_iter_differs_from_generate_past_end :
    generateFn chainEndOut (fun _ => 0) 5 = .ok (.done []) ∧
    genIterFn chainEndOut (fun _ => 0) 5 = .ok (.done [7]) ∧
    generateFn chainEndOut (fun _ => 0) 5 ≠ genIterFn chainEndOut (fun _ => 0) 5 := by
  refine ⟨rfl, rfl, by decide⟩
